import Mathlib

/-!
Verification of the edge/vertex selection engine of `src/igraph/__init__.py`
(classes `VertexSeq` and `EdgeSeq`, methods `select` and `find`).

Modelling conventions:
* Vertex and edge indices are `Nat`.  A graph is its directedness flag plus
  the list of edges as (source, target) pairs; edge `i` is `edges[i]`.
* An edge sequence (`EdgeSeq`) is the graph plus the ordered list of absolute
  edge indices it views, mirroring §3 of the spec ("Element View").
* Python `set` objects are represented by the list of their members whenever
  only membership is observed.  The single place where the *iteration order*
  of a set is observable (the full-view branches of `_within` and `_between`,
  which run `[i for i in candidates if ...]`) takes an explicit enumeration
  strategy `enum`; every theorem that depends on it assumes `ValidEnum enum`,
  i.e. that the strategy enumerates exactly the members of the set.  The
  canonical representation of the set `candidates` is its ascending
  duplicate-free member list, so `sorted(candidates)` is the representation
  itself.
* Fallible Python code (raised exceptions) is modelled with `Except SelErr`.
-/

/-- Errors raised by the selection engine (spec §7). -/
inductive SelErr where
  | indexOutOfRange
  | typeMismatch
  | unsupportedOperator
  | invalidOperand
  | notFound
deriving DecidableEq, Repr

/-- A graph: directedness flag and the edge list, edge `i` = `edges[i]`
with `edges[i] = (source, target)`. -/
structure Graph where
  directed : Bool
  edges : List (Nat × Nat)
deriving DecidableEq, Repr

/-- Number of edges (`Graph.ecount`). -/
def Graph.ecount (g : Graph) : Nat := g.edges.length

/-- Source vertex of edge `i` (`Edge.source`). -/
def Graph.edgeSource (g : Graph) (i : Nat) : Nat := (g.edges.getD i (0, 0)).1

/-- Target vertex of edge `i` (`Edge.target`). -/
def Graph.edgeTarget (g : Graph) (i : Nat) : Nat := (g.edges.getD i (0, 0)).2

/-- Edge `i` has `v` as one of its endpoints. -/
def Graph.touches (g : Graph) (i v : Nat) : Bool :=
  (g.edgeSource i == v) || (g.edgeTarget i == v)

/-- Incidence-query mode (`mode="out"` / `mode="in"` / `mode="all"`). -/
inductive EMode where
  | mOut
  | mIn
  | mAll
deriving DecidableEq, Repr

/-- Modelled from the spec: `GraphBase.incident` lives in the C extension and
is not under `src/`.  Per §6 the Graph Engine exposes
`incident(vertex, mode) -> ordered set of edge indices`; per the glossary the
incidence of a vertex is the set of edges touching it, and per the
`get_inclist` docstring in `src/` the `out` mode restricts to edges leaving
the vertex and `in` to edges entering it for directed graphs, the mode being
ignored for undirected graphs.  The result is in ascending edge-id order. -/
def Graph.incident (g : Graph) (v : Nat) (mode : EMode) : List Nat :=
  (List.range g.ecount).filter fun i =>
    if g.directed then
      match mode with
      | EMode.mOut => g.edgeSource i == v
      | EMode.mIn => g.edgeTarget i == v
      | EMode.mAll => g.touches i v
    else g.touches i v

/-- Modelled from the spec: the default `mode` of the bare call
`es.graph.incident(v)` is not under `src/`; per the glossary ("the set of
edges touching a given vertex") it returns all touching edges. -/
def Graph.incidentDefault (g : Graph) (v : Nat) : List Nat :=
  g.incident v EMode.mAll

/-- An edge sequence: a graph together with the ordered list of absolute edge
indices it views (spec §3, "Element View"). -/
structure EdgeSeq where
  graph : Graph
  idxs : List Nat
deriving DecidableEq, Repr

/-- Modelled from the spec: the C-level `is_all` test (spec §3 `is_full`):
true iff the view is exactly the complete `0..N-1` range. -/
def EdgeSeq.isAll (es : EdgeSeq) : Bool :=
  es.idxs == List.range es.graph.ecount

/-- Every viewed index is a valid edge id (spec §3 invariant). -/
def EdgeSeq.wf (es : EdgeSeq) : Bool :=
  es.idxs.all (· < es.graph.ecount)

/-- The full edge sequence `g.es`. -/
def Graph.fullES (g : Graph) : EdgeSeq :=
  ⟨g, List.range g.ecount⟩

/-- Modelled from the spec: C-level narrowing by local indices (spec §4.1
`narrow`): result index `i` is `view.indices[local[i]]`; fails with
`IndexOutOfRange` when a local index is out of bounds. -/
def EdgeSeq.narrow (es : EdgeSeq) (ls : List Nat) : Except SelErr EdgeSeq :=
  if ls.all (· < es.idxs.length) then
    Except.ok ⟨es.graph, ls.map fun l => es.idxs.getD l 0⟩
  else Except.error SelErr.indexOutOfRange

/-- The eight recognized operator suffixes (the `operators` dict). -/
inductive Op where
  | lt
  | gt
  | le
  | ge
  | eq
  | ne
  | opIn
  | opNotin
deriving DecidableEq, Repr

/-- Operand values passed to edge-selection keywords: a single integer, an
iterable of integers (list or set of vertex ids), or a tuple of integer
lists (used by `_between`).  String operands (vertex names, resolved in the
C layer) are outside the model. -/
inductive Operand where
  | vtx (v : Nat)
  | vset (l : List Nat)
  | vpair (ls : List (List Nat))
deriving DecidableEq, Repr

/-- `_ensure_set`: a `VertexSeq` or set passes through, any other value `x`
becomes `set(x)`.  `set(int)` raises `TypeError` (an int is not iterable) and
`set(tuple-of-lists)` raises `TypeError` (lists are unhashable), both modelled
as `typeMismatch`; an iterable of integers yields the set of its members,
represented by the member list. -/
def ensureSet (o : Operand) : Except SelErr (List Nat) :=
  match o with
  | Operand.vtx _ => Except.error SelErr.typeMismatch
  | Operand.vset l => Except.ok l
  | Operand.vpair _ => Except.error SelErr.typeMismatch

/-- The set `candidates` accumulated by `for v in value:
candidates.update(es.graph.incident(v))`, canonically represented as the
ascending duplicate-free list of its members. -/
def candidatesOf (g : Graph) (vs : List Nat) : List Nat :=
  (List.range g.ecount).filter fun i =>
    vs.any fun v => (g.incidentDefault v).contains i

/-- `func(v, value)` for an endpoint subject with operators `eq`, `ne`,
`lt`, `gt`, `le`, `ge`: comparison against a non-integer operand is `False`
for `==`, `True` for `!=`, and a `TypeError` for the ordering operators. -/
def cmpEndpoint (op : Op) (a : Nat) (o : Operand) : Except SelErr Bool :=
  match op with
  | Op.eq => Except.ok (match o with | Operand.vtx v => a == v | _ => false)
  | Op.ne => Except.ok (match o with | Operand.vtx v => a != v | _ => true)
  | Op.lt =>
    match o with
    | Operand.vtx v => Except.ok (decide (a < v))
    | _ => Except.error SelErr.typeMismatch
  | Op.gt =>
    match o with
    | Operand.vtx v => Except.ok (decide (v < a))
    | _ => Except.error SelErr.typeMismatch
  | Op.le =>
    match o with
    | Operand.vtx v => Except.ok (decide (a ≤ v))
    | _ => Except.error SelErr.typeMismatch
  | Op.ge =>
    match o with
    | Operand.vtx v => Except.ok (decide (v ≤ a))
    | _ => Except.error SelErr.typeMismatch
  | Op.opIn => Except.error SelErr.typeMismatch
  | Op.opNotin => Except.error SelErr.typeMismatch

/-- Elementwise evaluation of `func` over the value list, stopping at the
first raised exception, as a Python list comprehension does. -/
def exceptMap (f : Nat → Except SelErr Bool) : List Nat → Except SelErr (List Bool)
  | [] => Except.ok []
  | a :: rest => do
    let b ← f a
    let tl ← exceptMap f rest
    Except.ok (b :: tl)

/-- `[i for i, v in enumerate(values) if q v]`: the local positions whose
value satisfies `q`. -/
def filterIdxs (vals : List Nat) (q : Nat → Bool) : List Nat :=
  (List.range vals.length).filter fun i => q (vals.getD i 0)

/-- The non-shortcut endpoint branch: `values` are the per-edge endpoint
vertices in view order; for `in`/`notin` the operand is first forced into a
set, otherwise `func` is applied elementwise and may raise. -/
def endpointScan (op : Op) (o : Operand) (vals : List Nat) :
    Except SelErr (List Nat) :=
  match op with
  | Op.opIn => do
    let s ← ensureSet o
    Except.ok (filterIdxs vals fun a => s.contains a)
  | Op.opNotin => do
    let s ← ensureSet o
    Except.ok (filterIdxs vals fun a => !s.contains a)
  | _ => do
    let bs ← exceptMap (fun a => cmpEndpoint op a o) vals
    Except.ok ((List.range vals.length).filter fun i => bs.getD i false)

/-- `_incident`, non-full view: `[i for i, e in enumerate(es) if e.index in
candidates]`. -/
def naiveIncident (g : Graph) (idxs : List Nat) (value : List Nat) : List Nat :=
  (List.range idxs.length).filter fun i =>
    (candidatesOf g value).contains (idxs.getD i 0)

/-- `_within`, non-full view: both endpoints must lie in the set (and the
edge must be a candidate). -/
def naiveWithin (g : Graph) (idxs : List Nat) (value : List Nat) : List Nat :=
  (List.range idxs.length).filter fun i =>
    (candidatesOf g value).contains (idxs.getD i 0) &&
      value.contains (g.edgeSource (idxs.getD i 0)) &&
      value.contains (g.edgeTarget (idxs.getD i 0))

/-- `_between`, non-full view: one endpoint in `set1` and the other in
`set2`, in either direction. -/
def naiveBetween (g : Graph) (idxs : List Nat) (set1 set2 : List Nat) : List Nat :=
  (List.range idxs.length).filter fun i =>
    (set1.contains (g.edgeSource (idxs.getD i 0)) &&
        set2.contains (g.edgeTarget (idxs.getD i 0))) ||
      (set1.contains (g.edgeTarget (idxs.getD i 0)) &&
        set2.contains (g.edgeSource (idxs.getD i 0)))

/-- `_within`, full view: `[i for i in candidates if es[i].source in value and
es[i].target in value]`, where `candidates` is iterated in the set's
(unspecified) order, supplied here by `enum`. -/
def fullWithin (enum : List Nat → List Nat) (g : Graph) (value : List Nat) :
    List Nat :=
  (enum (candidatesOf g value)).filter fun i =>
    value.contains (g.edgeSource i) && value.contains (g.edgeTarget i)

/-- `_between`, full view: like `fullWithin` with the two-set test; the
candidate set is the union of the incidences of both sets. -/
def fullBetween (enum : List Nat → List Nat) (g : Graph) (set1 set2 : List Nat) :
    List Nat :=
  (enum (candidatesOf g (set1 ++ set2))).filter fun i =>
    (set1.contains (g.edgeSource i) && set2.contains (g.edgeTarget i)) ||
      (set1.contains (g.edgeTarget i) && set2.contains (g.edgeSource i))

/-- `_incident` body, after `_ensure_set`: compute the candidate set, then
either scan the current view or, on a full view, use `sorted(candidates)`
(which is the canonical candidate list itself). -/
def incidentIdxs (es : EdgeSeq) (value : List Nat) : List Nat :=
  if !es.isAll then naiveIncident es.graph es.idxs value
  else candidatesOf es.graph value

/-- A keyword predicate after the keyword string has been parsed into
(subject, operator).  Plain-attribute and computed-method subjects are
modelled from the spec (§4.3: the Attribute Store and per-element Graph
Engine methods are external): both deliver one value per element, depending
only on the element's absolute index, so they are carried as the composition
of that valuation with the compiled comparison, a per-absolute-index
boolean.  The five reserved edge subjects carry their parsed operator and
operand; `src` also stands for the alias `_from` and `tgt` for `_to`
(the code treats the members of each pair identically). -/
inductive EKeyword where
  | attrP (p : Nat → Bool)
  | methodP (p : Nat → Bool)
  | src (op : Op) (o : Operand)
  | tgt (op : Op) (o : Operand)
  | incid (op : Op) (o : Operand)
  | within (op : Op) (o : Operand)
  | between (op : Op) (o : Operand)

/-- The undirected rewrite of `_source`/`_target` operands under `eq`:
a non-iterable becomes the singleton set, an iterable becomes the set of its
members, and a tuple of lists raises (`set` of unhashable members). -/
def rewriteEqOperand (o : Operand) : Except SelErr (List Nat) :=
  match o with
  | Operand.vtx v => Except.ok [v]
  | Operand.vset l => Except.ok l
  | Operand.vpair _ => Except.error SelErr.typeMismatch

/-- One iteration of the keyword loop of `EdgeSeq.select` (source lines
4845-4986), for an already-parsed keyword.  `enum` supplies the iteration
order of the `candidates` set where that order is observable. -/
def evalEKw (enum : List Nat → List Nat) (es : EdgeSeq) (kw : EKeyword) :
    Except SelErr EdgeSeq :=
  let g := es.graph
  match kw with
  | EKeyword.attrP p =>
    es.narrow ((List.range es.idxs.length).filter fun i => p (es.idxs.getD i 0))
  | EKeyword.methodP p =>
    es.narrow ((List.range es.idxs.length).filter fun i => p (es.idxs.getD i 0))
  | EKeyword.src op o =>
    if !g.directed then
      if op != Op.eq && op != Op.opIn then Except.error SelErr.unsupportedOperator
      else do
        let value ← if op == Op.eq then rewriteEqOperand o else ensureSet o
        es.narrow (incidentIdxs es value)
    else if es.isAll && op == Op.eq then
      match o with
      | Operand.vtx v => es.narrow (g.incident v EMode.mOut)
      | _ => Except.error SelErr.typeMismatch
    else do
      let ls ← endpointScan op o (es.idxs.map g.edgeSource)
      es.narrow ls
  | EKeyword.tgt op o =>
    if !g.directed then
      if op != Op.eq && op != Op.opIn then Except.error SelErr.unsupportedOperator
      else do
        let value ← if op == Op.eq then rewriteEqOperand o else ensureSet o
        es.narrow (incidentIdxs es value)
    else if es.isAll && op == Op.eq then
      match o with
      | Operand.vtx v => es.narrow (g.incident v EMode.mIn)
      | _ => Except.error SelErr.typeMismatch
    else do
      let ls ← endpointScan op o (es.idxs.map g.edgeTarget)
      es.narrow ls
  | EKeyword.incid _ o => do
    let value ← ensureSet o
    es.narrow (incidentIdxs es value)
  | EKeyword.within _ o => do
    let value ← ensureSet o
    es.narrow
      (if !es.isAll then naiveWithin g es.idxs value else fullWithin enum g value)
  | EKeyword.between _ o =>
    match o with
    | Operand.vtx _ => Except.error SelErr.typeMismatch
    | Operand.vset l =>
      if l.length != 2 then Except.error SelErr.invalidOperand
      else Except.error SelErr.typeMismatch
    | Operand.vpair ls =>
      if ls.length != 2 then Except.error SelErr.invalidOperand
      else
        es.narrow
          (if !es.isAll then naiveBetween g es.idxs (ls.getD 0 []) (ls.getD 1 [])
           else fullBetween enum g (ls.getD 0 []) (ls.getD 1 []))

/-- The keyword loop: apply each parsed keyword in call order, each narrowing
the view produced by the previous one. -/
def selectKw (enum : List Nat → List Nat) (es : EdgeSeq) :
    List EKeyword → Except SelErr EdgeSeq
  | [] => Except.ok es
  | k :: rest => do
    let es' ← evalEKw enum es k
    selectKw enum es' rest

/-- A positional argument of `select` (spec §4.3): the null sentinel, a
callable receiving the element, or a sequence of local indices (a single
integer is the one-element sequence). -/
inductive PosArg where
  | noneArg
  | callable (p : Nat → Bool)
  | idxList (l : List Nat)

/-- Modelled from the spec: the C-level positional phase `_EdgeSeq.select`
(spec §4.3): no argument leaves the view unchanged, the null sentinel gives
the empty view, a callable keeps the elements on which it returns true, and
an index sequence narrows by local indices. -/
def posSelect (es : EdgeSeq) (a : Option PosArg) : Except SelErr EdgeSeq :=
  match a with
  | none => Except.ok es
  | some PosArg.noneArg => Except.ok ⟨es.graph, []⟩
  | some (PosArg.callable p) =>
    es.narrow ((List.range es.idxs.length).filter fun i => p (es.idxs.getD i 0))
  | some (PosArg.idxList l) => es.narrow l

/-- `EdgeSeq.select`: the positional phase followed by the keyword loop. -/
def EdgeSeq.select (enum : List Nat → List Nat) (es : EdgeSeq)
    (a : Option PosArg) (kwds : List EKeyword) : Except SelErr EdgeSeq := do
  let es1 ← posSelect es a
  selectKw enum es1 kwds

/-- Modelled from the spec: the C-level `_EdgeSeq.find(self, *args)`
(spec §4.5): apply the positional evaluation and return the first element of
the result in view order, failing with `NotFound` when it is empty. -/
def seqFindPos (es : EdgeSeq) (a : PosArg) : Except SelErr Nat := do
  let es' ← posSelect es (some a)
  match es'.idxs with
  | [] => Except.error SelErr.notFound
  | x :: _ => Except.ok x

/-- `EdgeSeq.find` (source lines 4647-4672): with positional arguments, find
the first positional match, return it if there are no keywords, otherwise
re-select that single edge from the full sequence and filter it by the
keywords; without positional arguments, keyword-filter the current view.
Either way the first element of the final view is returned and an empty
final view raises. -/
def EdgeSeq.find (enum : List Nat → List Nat) (es : EdgeSeq)
    (a : Option PosArg) (kwds : List EKeyword) : Except SelErr Nat :=
  match a with
  | some arg => do
    let e ← seqFindPos es arg
    if kwds.isEmpty then Except.ok e
    else do
      let es1 ← (es.graph.fullES).narrow [e]
      let es2 ← selectKw enum es1 kwds
      match es2.idxs with
      | [] => Except.error SelErr.notFound
      | x :: _ => Except.ok x
  | none => do
    let es2 ← selectKw enum es kwds
    match es2.idxs with
    | [] => Except.error SelErr.notFound
    | x :: _ => Except.ok x

/-- An enumeration strategy is valid when it enumerates exactly the members
of the (duplicate-free) list representing the set. -/
def ValidEnum (enum : List Nat → List Nat) : Prop :=
  ∀ l : List Nat, (enum l).Perm l

/-- The identity strategy (ascending order, as the canonical set
representation already is). -/
def idEnum : List Nat → List Nat := fun l => l

/-- The reversing strategy: a possible iteration order of an unordered set. -/
def revEnum : List Nat → List Nat := fun l => l.reverse

/-- The recognized operator suffixes, as the keys of the `operators` dict. -/
def opNames : List (List Char) :=
  [['l', 't'], ['g', 't'], ['l', 'e'], ['g', 'e'],
   ['e', 'q'], ['n', 'e'], ['i', 'n'], ['n', 'o', 't', 'i', 'n']]

/-- `keyword.rindex("_")`: the index of the last underscore, when any. -/
def rindexU : List Char → Option Nat
  | [] => none
  | c :: rest =>
    match rindexU rest with
    | some i => some (i + 1)
    | none => if c = '_' then some 0 else none

/-- The keyword-to-(attribute, operator) step of the keyword loop (source
lines 4846-4854 and the equivalent 4542-4549): a keyword without an
underscore, or whose last underscore is its first character, gets `_eq`
appended; the keyword is then split at its last underscore, and when the
suffix is not a recognized operator the whole keyword is the attribute with
operator `eq`. -/
def parseKw (kw : List Char) : List Char × List Char :=
  let kw' := if !kw.contains '_' || rindexU kw == some 0
    then kw ++ ['_', 'e', 'q'] else kw
  match rindexU kw' with
  | some pos =>
    let attr := kw'.take pos
    let op := kw'.drop (pos + 1)
    if opNames.contains op then (attr, op) else (kw', ['e', 'q'])
  | none => (kw', ['e', 'q'])

/-- The predicate-compiler algorithm as the specification words it (§4.2 and
claim C4): if the keyword contains no underscore, or its only underscore is
the leading character, the whole keyword is the subject with operator `eq`;
otherwise split at the last underscore, accept a recognized suffix as the
operator, and fall back to the entire original keyword with `eq`. -/
def parseKwSpec (kw : List Char) : List Char × List Char :=
  if !kw.contains '_' ||
      (kw.head? == some '_' && !kw.tail.contains '_') then (kw, ['e', 'q'])
  else
    match rindexU kw with
    | some pos =>
      let suffixPart := kw.drop (pos + 1)
      if opNames.contains suffixPart then (kw.take pos, suffixPart)
      else (kw, ['e', 'q'])
    | none => (kw, ['e', 'q'])

/-- Edge `e` qualifies for `_incident` with vertex set `vs`: at least one
endpoint is in the set. -/
def qualIncident (g : Graph) (vs : List Nat) (e : Nat) : Bool :=
  vs.any fun v => g.touches e v

/-- Edge `e` qualifies for `_within` with vertex set `vs`: both endpoints
are in the set. -/
def qualWithin (g : Graph) (vs : List Nat) (e : Nat) : Bool :=
  vs.contains (g.edgeSource e) && vs.contains (g.edgeTarget e)

/-- Edge `e` qualifies for `_between` with sets `s1`, `s2`: one endpoint in
each, in either direction. -/
def qualBetween (g : Graph) (s1 s2 : List Nat) (e : Nat) : Bool :=
  (s1.contains (g.edgeSource e) && s2.contains (g.edgeTarget e)) ||
    (s1.contains (g.edgeTarget e) && s2.contains (g.edgeSource e))

/-- Total boolean reading of an endpoint comparison: agrees with
`cmpEndpoint`/the `in`-`notin` set test wherever those succeed. -/
def epChi (op : Op) (o : Operand) (a : Nat) : Bool :=
  match op with
  | Op.eq => match o with | Operand.vtx v => a == v | _ => false
  | Op.ne => match o with | Operand.vtx v => a != v | _ => true
  | Op.lt => match o with | Operand.vtx v => decide (a < v) | _ => false
  | Op.gt => match o with | Operand.vtx v => decide (v < a) | _ => false
  | Op.le => match o with | Operand.vtx v => decide (a ≤ v) | _ => false
  | Op.ge => match o with | Operand.vtx v => decide (v ≤ a) | _ => false
  | Op.opIn => match o with | Operand.vset l => l.contains a | _ => false
  | Op.opNotin => match o with | Operand.vset l => !l.contains a | _ => false

/-- The vertex set an undirected `_source`/`_target` keyword is rewritten
to, when the rewrite succeeds. -/
def undirSet (op : Op) (o : Operand) : List Nat :=
  match (if op == Op.eq then rewriteEqOperand o else ensureSet o) with
  | Except.ok l => l
  | Except.error _ => []

/-- The characteristic predicate of a keyword: whether a given absolute edge
index qualifies.  Wherever the evaluation of the keyword succeeds, its result
consists of exactly the viewed indices satisfying this predicate. -/
def chiKw (g : Graph) : EKeyword → Nat → Bool
  | EKeyword.attrP p => p
  | EKeyword.methodP p => p
  | EKeyword.src op o => fun e =>
    if g.directed then epChi op o (g.edgeSource e)
    else qualIncident g (undirSet op o) e
  | EKeyword.tgt op o => fun e =>
    if g.directed then epChi op o (g.edgeTarget e)
    else qualIncident g (undirSet op o) e
  | EKeyword.incid _ o => fun e =>
    qualIncident g (match ensureSet o with | Except.ok l => l | _ => []) e
  | EKeyword.within _ o => fun e =>
    qualWithin g (match ensureSet o with | Except.ok l => l | _ => []) e
  | EKeyword.between _ o => fun e =>
    match o with
    | Operand.vpair ls => qualBetween g (ls.getD 0 []) (ls.getD 1 []) e
    | _ => false

/-- An edge qualifies for a whole keyword list iff it qualifies for each
keyword. -/
def chiAll (g : Graph) (kwds : List EKeyword) (x : Nat) : Bool :=
  kwds.all fun kw => chiKw g kw x

def triGraph : Graph := ⟨true, [(0, 1), (1, 2), (2, 0)]⟩

def pathGraph : Graph := ⟨false, [(0, 1)]⟩

def betweenG : Graph := ⟨true, [(0, 1), (1, 0), (0, 2), (2, 2)]⟩

def gWithin : Graph :=
  ⟨true, [(2, 3), (0, 1), (2, 3), (2, 3), (2, 3), (2, 3), (2, 3), (2, 3), (1, 0)]⟩

def gOne : Graph := ⟨true, [(0, 1)]⟩

def gTwo : Graph := ⟨true, [(0, 1), (0, 2)]⟩

theorem idEnum_valid : ValidEnum idEnum := fun l => List.Perm.refl l

theorem revEnum_valid : ValidEnum revEnum := fun l => List.reverse_perm l

/-- Mapping a local-position filter back through the view is filtering the
view itself. -/
theorem narrowFilter_eq_filter (idxs : List Nat) (q : Nat → Bool) :
    ((List.range idxs.length).filter fun i => q (idxs.getD i 0)).map
      (fun l => idxs.getD l 0) = idxs.filter q := by
  induction idxs with
  | nil => rfl
  | cons a rest ih =>
    simp only [List.getD_eq_getElem?_getD] at ih
    cases hqa : q a <;>
      simp [List.range_succ_eq_map, List.filter_cons, hqa, List.filter_map,
        List.map_map, Function.comp_def, ih]

theorem getD_range {n l : Nat} (h : l < n) : (List.range n).getD l 0 = l := by
  rw [List.getD_eq_getElem _ _ (by simpa using h)]
  simp

theorem contains_mem {l : List Nat} {a : Nat} : l.contains a = true ↔ a ∈ l := by
  simp

/-- Success and result of `narrow`. -/
theorem narrow_ok_iff (es : EdgeSeq) (ls : List Nat) (r : EdgeSeq) :
    es.narrow ls = Except.ok r ↔
      (ls.all (· < es.idxs.length) = true ∧
        r = ⟨es.graph, ls.map fun l => es.idxs.getD l 0⟩) := by
  unfold EdgeSeq.narrow
  split
  · rename_i hall
    simp only [Except.ok.injEq]
    constructor
    · intro h
      exact ⟨hall, h.symm⟩
    · intro h
      exact h.2.symm
  · rename_i hall
    constructor
    · intro h
      simp at h
    · intro h
      exact absurd h.1 hall

theorem isAll_idxs {es : EdgeSeq} (h : es.isAll = true) :
    es.idxs = List.range es.graph.ecount := by
  simpa [EdgeSeq.isAll] using h

/-- Membership in an incidence query. -/
theorem mem_incident {g : Graph} {v : Nat} {mode : EMode} {x : Nat} :
    x ∈ g.incident v mode ↔ x < g.ecount ∧
      (if g.directed then
        match mode with
        | EMode.mOut => g.edgeSource x == v
        | EMode.mIn => g.edgeTarget x == v
        | EMode.mAll => g.touches x v
      else g.touches x v) = true := by
  simp [Graph.incident, List.mem_filter, and_comm]

theorem mem_incidentDefault {g : Graph} {v x : Nat} :
    x ∈ g.incidentDefault v ↔ x < g.ecount ∧ g.touches x v = true := by
  unfold Graph.incidentDefault
  rw [mem_incident]
  cases hd : g.directed <;> simp

/-- Membership in the candidate set. -/
theorem mem_candidatesOf {g : Graph} {vs : List Nat} {x : Nat} :
    x ∈ candidatesOf g vs ↔ x < g.ecount ∧ qualIncident g vs x = true := by
  unfold candidatesOf qualIncident
  simp only [List.mem_filter, List.mem_range, List.any_eq_true]
  constructor
  · rintro ⟨hx, v, hv, hmem⟩
    exact ⟨hx, v, hv, (mem_incidentDefault.mp (by simpa using hmem)).2⟩
  · rintro ⟨hx, v, hv, ht⟩
    exact ⟨hx, v, hv, by simpa using mem_incidentDefault.mpr ⟨hx, ht⟩⟩

/-- A within-qualifying edge is incident on the set (provided it has an
endpoint at all, which `touches` gives via its own source). -/
theorem qualWithin_qualIncident {g : Graph} {vs : List Nat} {e : Nat}
    (h : qualWithin g vs e = true) : qualIncident g vs e = true := by
  unfold qualWithin at h
  unfold qualIncident
  simp only [Bool.and_eq_true, contains_mem] at h
  simp only [List.any_eq_true]
  exact ⟨g.edgeSource e, h.1, by simp [Graph.touches]⟩

/-- A between-qualifying edge is incident on the union of the two sets. -/
theorem qualBetween_qualIncident {g : Graph} {s1 s2 : List Nat} {e : Nat}
    (h : qualBetween g s1 s2 e = true) :
    qualIncident g (s1 ++ s2) e = true := by
  unfold qualBetween at h
  unfold qualIncident
  simp only [Bool.or_eq_true, Bool.and_eq_true, contains_mem] at h
  simp only [List.any_eq_true, List.mem_append]
  rcases h with ⟨h1, _⟩ | ⟨h1, _⟩
  · exact ⟨g.edgeSource e, Or.inl h1, by simp [Graph.touches]⟩
  · exact ⟨g.edgeTarget e, Or.inl h1, by simp [Graph.touches]⟩

theorem cmpEndpoint_ok_chi {op : Op} {a : Nat} {o : Operand} {b : Bool}
    (h : cmpEndpoint op a o = Except.ok b) : b = epChi op o a := by
  cases op <;> cases o <;> simp_all [cmpEndpoint, epChi]

theorem exceptMap_ok_chi {f : Nat → Except SelErr Bool} {q : Nat → Bool}
    (hf : ∀ a b, f a = Except.ok b → b = q a) :
    ∀ {vals bs}, exceptMap f vals = Except.ok bs → bs = vals.map q := by
  intro vals
  induction vals with
  | nil =>
    intro bs h
    have h1 := Except.ok.inj h
    rw [← h1]
    rfl
  | cons a rest ih =>
    intro bs h
    have h1 : (do
        let b ← f a
        let tl ← exceptMap f rest
        Except.ok (b :: tl)) = Except.ok bs := h
    cases hfa : f a with
    | error e =>
      rw [hfa] at h1
      exact Except.noConfusion h1
    | ok b =>
      rw [hfa] at h1
      cases hrest : exceptMap f rest with
      | error e =>
        rw [hrest] at h1
        exact Except.noConfusion h1
      | ok tl =>
        rw [hrest] at h1
        have h2 := Except.ok.inj h1
        rw [← h2, hf a b hfa, ih hrest]
        rfl

theorem getD_map {l : List Nat} {f : Nat → Nat} {i : Nat} (h : i < l.length) :
    (l.map f).getD i 0 = f (l.getD i 0) := by
  rw [List.getD_eq_getElem _ _ (by simpa using h), List.getD_eq_getElem _ _ h]
  simp

theorem filterIdxs_map (idxs : List Nat) (f : Nat → Nat) (q : Nat → Bool) :
    filterIdxs (idxs.map f) q = filterIdxs idxs (fun a => q (f a)) := by
  unfold filterIdxs
  rw [List.length_map]
  exact List.filter_congr fun i hi => by
    rw [getD_map (List.mem_range.mp hi)]

/-- Filtering local positions through the boolean list produced by an
elementwise comparison is filtering by the comparison itself. -/
theorem scanFilter_eq (vals : List Nat) (q : Nat → Bool) :
    ((List.range vals.length).filter fun i => (vals.map q).getD i false) =
      filterIdxs vals q := by
  unfold filterIdxs
  refine List.filter_congr fun i hi => ?_
  have h := List.mem_range.mp hi
  rw [List.getD_eq_getElem _ _ (by simpa using h), List.getD_eq_getElem _ _ h]
  simp

theorem endpointScan_cmp {op : Op} {o : Operand} {vals ls : List Nat}
    (hbody : endpointScan op o vals = do
        let bs ← exceptMap (fun a => cmpEndpoint op a o) vals
        Except.ok ((List.range vals.length).filter fun i => bs.getD i false))
    (h : endpointScan op o vals = Except.ok ls) :
    ls = filterIdxs vals (epChi op o) := by
  rw [hbody] at h
  cases hm : exceptMap (fun a => cmpEndpoint op a o) vals with
  | error e =>
    rw [hm] at h
    exact Except.noConfusion h
  | ok bs =>
    rw [hm] at h
    have h2 := Except.ok.inj h
    have hbs : bs = vals.map (epChi op o) :=
      exceptMap_ok_chi (fun a b hab => cmpEndpoint_ok_chi hab) hm
    rw [← h2, hbs, scanFilter_eq]

/-- A successful non-shortcut endpoint scan computes exactly the local
positions whose endpoint satisfies the total comparison `epChi`. -/
theorem endpointScan_ok {op : Op} {o : Operand} {vals ls : List Nat}
    (h : endpointScan op o vals = Except.ok ls) :
    ls = filterIdxs vals (epChi op o) := by
  cases op with
  | opIn =>
    cases o with
    | vtx v => exact Except.noConfusion h
    | vpair ps => exact Except.noConfusion h
    | vset l => exact (Except.ok.inj h).symm
  | opNotin =>
    cases o with
    | vtx v => exact Except.noConfusion h
    | vpair ps => exact Except.noConfusion h
    | vset l => exact (Except.ok.inj h).symm
  | lt => exact endpointScan_cmp rfl h
  | gt => exact endpointScan_cmp rfl h
  | le => exact endpointScan_cmp rfl h
  | ge => exact endpointScan_cmp rfl h
  | eq => exact endpointScan_cmp rfl h
  | ne => exact endpointScan_cmp rfl h

/-- Narrowing by a local-position filter always succeeds and produces the
filtered view. -/
theorem narrow_filterIdxs_ok (es : EdgeSeq) (q : Nat → Bool) :
    es.narrow (filterIdxs es.idxs q) =
      Except.ok ⟨es.graph, es.idxs.filter q⟩ := by
  rw [narrow_ok_iff]
  constructor
  · rw [List.all_eq_true]
    intro l hl
    unfold filterIdxs at hl
    have := List.mem_range.mp (List.mem_filter.mp hl).1
    simpa using this
  · rw [EdgeSeq.mk.injEq]
    exact ⟨rfl, (narrowFilter_eq_filter es.idxs q).symm⟩

/-- On a full view, narrowing by a list of valid absolute indices returns
exactly that list (local and absolute indices coincide). -/
theorem narrow_full_abs {es : EdgeSeq} (hall : es.isAll = true) {ls : List Nat}
    (hls : ∀ x ∈ ls, x < es.graph.ecount) :
    es.narrow ls = Except.ok ⟨es.graph, ls⟩ := by
  have hidx := isAll_idxs hall
  rw [narrow_ok_iff]
  constructor
  · rw [List.all_eq_true]
    intro l hl
    rw [hidx, List.length_range]
    simpa using hls l hl
  · rw [EdgeSeq.mk.injEq]
    refine ⟨rfl, ?_⟩
    rw [hidx]
    exact (List.map_congr_left fun l hl => getD_range (hls l hl)).symm ▸
      (List.map_id ls).symm ▸ rfl

theorem wf_lt {es : EdgeSeq} (hwf : es.wf = true) {x : Nat} (hx : x ∈ es.idxs) :
    x < es.graph.ecount := by
  have := List.all_eq_true.mp hwf x hx
  simpa using this

/-- On a full view a successful narrow returns its argument list unchanged,
and that list is a list of valid absolute indices. -/
theorem narrow_full_ok {es : EdgeSeq} (hall : es.isAll = true) {ls : List Nat}
    {r : EdgeSeq} (h : es.narrow ls = Except.ok r) :
    r = ⟨es.graph, ls⟩ ∧ ∀ x ∈ ls, x < es.graph.ecount := by
  rcases (narrow_ok_iff es ls r).mp h with ⟨hlen, hr⟩
  have hidx := isAll_idxs hall
  have hls : ∀ x ∈ ls, x < es.graph.ecount := by
    intro x hx
    have := List.all_eq_true.mp hlen x hx
    rw [hidx, List.length_range] at this
    simpa using this
  refine ⟨?_, hls⟩
  rw [hr, EdgeSeq.mk.injEq]
  refine ⟨rfl, ?_⟩
  rw [hidx]
  calc ls.map (fun l => (List.range es.graph.ecount).getD l 0)
      = ls.map id := List.map_congr_left fun l hl => getD_range (hls l hl)
    _ = ls := List.map_id ls

theorem mem_full_idxs {es : EdgeSeq} (hall : es.isAll = true) {x : Nat} :
    x ∈ es.idxs ↔ x < es.graph.ecount := by
  rw [isAll_idxs hall]
  exact List.mem_range

/-- Characterization of a successful `_incident` narrowing (both the full
and the non-full path): the result holds exactly the viewed edges with an
endpoint in the set. -/
theorem narrow_incidentIdxs_mem {es : EdgeSeq} {value : List Nat} {r : EdgeSeq}
    (hwf : es.wf = true)
    (h : es.narrow (incidentIdxs es value) = Except.ok r) :
    r.graph = es.graph ∧
      ∀ x, x ∈ r.idxs ↔ x ∈ es.idxs ∧ qualIncident es.graph value x = true := by
  unfold incidentIdxs at h
  cases hall : es.isAll with
  | false =>
    rw [hall] at h
    simp only [Bool.not_false, if_true] at h
    have heq : naiveIncident es.graph es.idxs value =
        filterIdxs es.idxs fun e => (candidatesOf es.graph value).contains e := rfl
    rw [heq, narrow_filterIdxs_ok] at h
    have h2 := (Except.ok.inj h).symm
    subst h2
    refine ⟨rfl, fun x => ?_⟩
    simp only [List.mem_filter]
    constructor
    · rintro ⟨hx, hc⟩
      exact ⟨hx, (mem_candidatesOf.mp (contains_mem.mp hc)).2⟩
    · rintro ⟨hx, hq⟩
      exact ⟨hx, contains_mem.mpr (mem_candidatesOf.mpr ⟨wf_lt hwf hx, hq⟩)⟩
  | true =>
    rw [hall] at h
    simp only [Bool.not_true, Bool.false_eq_true, if_false] at h
    rcases narrow_full_ok hall h with ⟨hr, _⟩
    subst hr
    refine ⟨rfl, fun x => ?_⟩
    rw [mem_full_idxs hall]
    constructor
    · intro hx
      rcases mem_candidatesOf.mp hx with ⟨hlt, hq⟩
      exact ⟨hlt, hq⟩
    · rintro ⟨hx, hq⟩
      exact mem_candidatesOf.mpr ⟨hx, hq⟩

/-- Characterization of a successful `_within` narrowing. -/
theorem narrow_within_mem {enum : List Nat → List Nat} (henum : ValidEnum enum)
    {es : EdgeSeq} {value : List Nat} {r : EdgeSeq} (hwf : es.wf = true)
    (h : es.narrow
        (if !es.isAll then naiveWithin es.graph es.idxs value
         else fullWithin enum es.graph value) = Except.ok r) :
    r.graph = es.graph ∧
      ∀ x, x ∈ r.idxs ↔ x ∈ es.idxs ∧ qualWithin es.graph value x = true := by
  cases hall : es.isAll with
  | false =>
    rw [hall] at h
    simp only [Bool.not_false, if_true] at h
    have heq : naiveWithin es.graph es.idxs value =
        filterIdxs es.idxs fun e =>
          (candidatesOf es.graph value).contains e &&
            value.contains (es.graph.edgeSource e) &&
            value.contains (es.graph.edgeTarget e) := rfl
    rw [heq, narrow_filterIdxs_ok] at h
    have h2 := (Except.ok.inj h).symm
    subst h2
    refine ⟨rfl, fun x => ?_⟩
    simp only [List.mem_filter, Bool.and_eq_true]
    constructor
    · rintro ⟨hx, ⟨_, hs⟩, ht⟩
      exact ⟨hx, by unfold qualWithin; rw [hs, ht]; rfl⟩
    · rintro ⟨hx, hq⟩
      have hq' := hq
      unfold qualWithin at hq'
      rw [Bool.and_eq_true] at hq'
      refine ⟨hx, ⟨?_, hq'.1⟩, hq'.2⟩
      exact contains_mem.mpr
        (mem_candidatesOf.mpr ⟨wf_lt hwf hx, qualWithin_qualIncident hq⟩)
  | true =>
    rw [hall] at h
    simp only [Bool.not_true, Bool.false_eq_true, if_false] at h
    rcases narrow_full_ok hall h with ⟨hr, _⟩
    subst hr
    refine ⟨rfl, fun x => ?_⟩
    rw [mem_full_idxs hall]
    unfold fullWithin
    simp only [List.mem_filter, (henum (candidatesOf es.graph value)).mem_iff]
    constructor
    · rintro ⟨hc, hq⟩
      exact ⟨(mem_candidatesOf.mp hc).1, hq⟩
    · rintro ⟨hx, hq⟩
      have hq' := hq
      unfold qualWithin at hq'
      exact ⟨mem_candidatesOf.mpr ⟨hx, qualWithin_qualIncident hq⟩, hq'⟩

/-- Characterization of a successful `_between` narrowing. -/
theorem narrow_between_mem {enum : List Nat → List Nat} (henum : ValidEnum enum)
    {es : EdgeSeq} {s1 s2 : List Nat} {r : EdgeSeq} (hwf : es.wf = true)
    (h : es.narrow
        (if !es.isAll then naiveBetween es.graph es.idxs s1 s2
         else fullBetween enum es.graph s1 s2) = Except.ok r) :
    r.graph = es.graph ∧
      ∀ x, x ∈ r.idxs ↔ x ∈ es.idxs ∧ qualBetween es.graph s1 s2 x = true := by
  cases hall : es.isAll with
  | false =>
    rw [hall] at h
    simp only [Bool.not_false, if_true] at h
    have heq : naiveBetween es.graph es.idxs s1 s2 =
        filterIdxs es.idxs (qualBetween es.graph s1 s2) := rfl
    rw [heq, narrow_filterIdxs_ok] at h
    have h2 := (Except.ok.inj h).symm
    subst h2
    exact ⟨rfl, fun x => List.mem_filter⟩
  | true =>
    rw [hall] at h
    simp only [Bool.not_true, Bool.false_eq_true, if_false] at h
    rcases narrow_full_ok hall h with ⟨hr, _⟩
    subst hr
    refine ⟨rfl, fun x => ?_⟩
    rw [mem_full_idxs hall]
    unfold fullBetween
    simp only [List.mem_filter, (henum (candidatesOf es.graph (s1 ++ s2))).mem_iff]
    constructor
    · rintro ⟨hc, hq⟩
      exact ⟨(mem_candidatesOf.mp hc).1, hq⟩
    · rintro ⟨hx, hq⟩
      exact ⟨mem_candidatesOf.mpr ⟨hx, qualBetween_qualIncident hq⟩, hq⟩

/-- Characterization of one successful keyword-loop iteration: the graph is
unchanged and the surviving absolute indices are exactly the viewed indices
satisfying the keyword's characteristic predicate. -/
theorem evalEKw_mem {enum : List Nat → List Nat} (henum : ValidEnum enum)
    {es : EdgeSeq} {kw : EKeyword} {r : EdgeSeq} (hwf : es.wf = true)
    (h : evalEKw enum es kw = Except.ok r) :
    r.graph = es.graph ∧
      ∀ x, x ∈ r.idxs ↔ x ∈ es.idxs ∧ chiKw es.graph kw x = true := by
  cases kw with
  | attrP p =>
    have h' : es.narrow (filterIdxs es.idxs p) = Except.ok r := h
    rw [narrow_filterIdxs_ok] at h'
    have h2 := (Except.ok.inj h').symm
    subst h2
    exact ⟨rfl, fun x => List.mem_filter⟩
  | methodP p =>
    have h' : es.narrow (filterIdxs es.idxs p) = Except.ok r := h
    rw [narrow_filterIdxs_ok] at h'
    have h2 := (Except.ok.inj h').symm
    subst h2
    exact ⟨rfl, fun x => List.mem_filter⟩
  | src op o =>
    simp only [evalEKw] at h
    cases hd : es.graph.directed with
    | false =>
      rw [hd] at h
      simp only [Bool.not_false, if_true] at h
      cases hcond : (op != Op.eq && op != Op.opIn) with
      | true =>
        rw [hcond] at h
        simp only [if_true] at h
        exact Except.noConfusion h
      | false =>
        rw [hcond] at h
        simp only [Bool.false_eq_true, if_false] at h
        cases hop : (op == Op.eq) with
        | true =>
          rw [hop] at h
          simp only [if_true] at h
          cases hv : rewriteEqOperand o with
          | error e =>
            rw [hv] at h
            exact Except.noConfusion h
          | ok value =>
            rw [hv] at h
            have h' : es.narrow (incidentIdxs es value) = Except.ok r := h
            rcases narrow_incidentIdxs_mem hwf h' with ⟨hg, hmem⟩
            refine ⟨hg, fun x => ?_⟩
            rw [hmem x]
            simp only [chiKw, hd, Bool.false_eq_true, if_false, undirSet, hop,
              if_true, hv]
        | false =>
          rw [hop] at h
          simp only [Bool.false_eq_true, if_false] at h
          cases hv : ensureSet o with
          | error e =>
            rw [hv] at h
            exact Except.noConfusion h
          | ok value =>
            rw [hv] at h
            have h' : es.narrow (incidentIdxs es value) = Except.ok r := h
            rcases narrow_incidentIdxs_mem hwf h' with ⟨hg, hmem⟩
            refine ⟨hg, fun x => ?_⟩
            rw [hmem x]
            simp only [chiKw, hd, Bool.false_eq_true, if_false, undirSet, hop,
              hv]
    | true =>
      rw [hd] at h
      simp only [Bool.not_true, Bool.false_eq_true, if_false] at h
      cases hshort : (es.isAll && (op == Op.eq)) with
      | true =>
        rw [hshort] at h
        simp only [if_true] at h
        rcases (by simpa using hshort : es.isAll = true ∧ op = Op.eq) with ⟨hall, hop⟩
        subst hop
        cases o with
        | vtx v =>
          rcases narrow_full_ok hall h with ⟨hr, _⟩
          subst hr
          refine ⟨rfl, fun x => ?_⟩
          rw [mem_full_idxs hall]
          have hmem : x ∈ es.graph.incident v EMode.mOut ↔
              x < es.graph.ecount ∧ (es.graph.edgeSource x == v) = true := by
            rw [mem_incident, hd]
            simp
          refine hmem.trans ?_
          simp only [chiKw, hd, if_true, epChi]
        | vset l => exact Except.noConfusion h
        | vpair ps => exact Except.noConfusion h
      | false =>
        rw [hshort] at h
        simp only [Bool.false_eq_true, if_false] at h
        cases hscan : endpointScan op o (es.idxs.map es.graph.edgeSource) with
        | error e =>
          rw [hscan] at h
          exact Except.noConfusion h
        | ok ls =>
          rw [hscan] at h
          have h' : es.narrow ls = Except.ok r := h
          rw [endpointScan_ok hscan, filterIdxs_map, narrow_filterIdxs_ok] at h'
          have h2 := (Except.ok.inj h').symm
          subst h2
          refine ⟨rfl, fun x => ?_⟩
          simp only [List.mem_filter, chiKw, hd, if_true]
  | tgt op o =>
    simp only [evalEKw] at h
    cases hd : es.graph.directed with
    | false =>
      rw [hd] at h
      simp only [Bool.not_false, if_true] at h
      cases hcond : (op != Op.eq && op != Op.opIn) with
      | true =>
        rw [hcond] at h
        simp only [if_true] at h
        exact Except.noConfusion h
      | false =>
        rw [hcond] at h
        simp only [Bool.false_eq_true, if_false] at h
        cases hop : (op == Op.eq) with
        | true =>
          rw [hop] at h
          simp only [if_true] at h
          cases hv : rewriteEqOperand o with
          | error e =>
            rw [hv] at h
            exact Except.noConfusion h
          | ok value =>
            rw [hv] at h
            have h' : es.narrow (incidentIdxs es value) = Except.ok r := h
            rcases narrow_incidentIdxs_mem hwf h' with ⟨hg, hmem⟩
            refine ⟨hg, fun x => ?_⟩
            rw [hmem x]
            simp only [chiKw, hd, Bool.false_eq_true, if_false, undirSet, hop,
              if_true, hv]
        | false =>
          rw [hop] at h
          simp only [Bool.false_eq_true, if_false] at h
          cases hv : ensureSet o with
          | error e =>
            rw [hv] at h
            exact Except.noConfusion h
          | ok value =>
            rw [hv] at h
            have h' : es.narrow (incidentIdxs es value) = Except.ok r := h
            rcases narrow_incidentIdxs_mem hwf h' with ⟨hg, hmem⟩
            refine ⟨hg, fun x => ?_⟩
            rw [hmem x]
            simp only [chiKw, hd, Bool.false_eq_true, if_false, undirSet, hop,
              hv]
    | true =>
      rw [hd] at h
      simp only [Bool.not_true, Bool.false_eq_true, if_false] at h
      cases hshort : (es.isAll && (op == Op.eq)) with
      | true =>
        rw [hshort] at h
        simp only [if_true] at h
        rcases (by simpa using hshort : es.isAll = true ∧ op = Op.eq) with ⟨hall, hop⟩
        subst hop
        cases o with
        | vtx v =>
          rcases narrow_full_ok hall h with ⟨hr, _⟩
          subst hr
          refine ⟨rfl, fun x => ?_⟩
          rw [mem_full_idxs hall]
          have hmem : x ∈ es.graph.incident v EMode.mIn ↔
              x < es.graph.ecount ∧ (es.graph.edgeTarget x == v) = true := by
            rw [mem_incident, hd]
            simp
          refine hmem.trans ?_
          simp only [chiKw, hd, if_true, epChi]
        | vset l => exact Except.noConfusion h
        | vpair ps => exact Except.noConfusion h
      | false =>
        rw [hshort] at h
        simp only [Bool.false_eq_true, if_false] at h
        cases hscan : endpointScan op o (es.idxs.map es.graph.edgeTarget) with
        | error e =>
          rw [hscan] at h
          exact Except.noConfusion h
        | ok ls =>
          rw [hscan] at h
          have h' : es.narrow ls = Except.ok r := h
          rw [endpointScan_ok hscan, filterIdxs_map, narrow_filterIdxs_ok] at h'
          have h2 := (Except.ok.inj h').symm
          subst h2
          refine ⟨rfl, fun x => ?_⟩
          simp only [List.mem_filter, chiKw, hd, if_true]
  | incid op o =>
    simp only [evalEKw] at h
    cases hv : ensureSet o with
    | error e =>
      rw [hv] at h
      exact Except.noConfusion h
    | ok value =>
      rw [hv] at h
      have h' : es.narrow (incidentIdxs es value) = Except.ok r := h
      rcases narrow_incidentIdxs_mem hwf h' with ⟨hg, hmem⟩
      refine ⟨hg, fun x => ?_⟩
      rw [hmem x]
      simp only [chiKw, hv]
  | within op o =>
    simp only [evalEKw] at h
    cases hv : ensureSet o with
    | error e =>
      rw [hv] at h
      exact Except.noConfusion h
    | ok value =>
      rw [hv] at h
      have h' : es.narrow
          (if !es.isAll then naiveWithin es.graph es.idxs value
           else fullWithin enum es.graph value) = Except.ok r := h
      rcases narrow_within_mem henum hwf h' with ⟨hg, hmem⟩
      refine ⟨hg, fun x => ?_⟩
      rw [hmem x]
      simp only [chiKw, hv]
  | between op o =>
    simp only [evalEKw] at h
    cases o with
    | vtx v => exact Except.noConfusion h
    | vset l =>
      have h' : (if (l.length != 2) = true
          then (Except.error SelErr.invalidOperand : Except SelErr EdgeSeq)
          else Except.error SelErr.typeMismatch) = Except.ok r := h
      cases hlen : (l.length != 2) with
      | true =>
        rw [hlen] at h'
        simp only [if_true] at h'
        exact Except.noConfusion h'
      | false =>
        rw [hlen] at h'
        simp only [Bool.false_eq_true, if_false] at h'
        exact Except.noConfusion h'
    | vpair ps =>
      have h' : (if (ps.length != 2) = true
          then (Except.error SelErr.invalidOperand : Except SelErr EdgeSeq)
          else es.narrow
            (if !es.isAll then naiveBetween es.graph es.idxs (ps.getD 0 []) (ps.getD 1 [])
             else fullBetween enum es.graph (ps.getD 0 []) (ps.getD 1 []))) =
          Except.ok r := h
      cases hlen : (ps.length != 2) with
      | true =>
        rw [hlen] at h'
        simp only [if_true] at h'
        exact Except.noConfusion h'
      | false =>
        rw [hlen] at h'
        simp only [Bool.false_eq_true, if_false] at h'
        rcases narrow_between_mem henum hwf h' with ⟨hg, hmem⟩
        refine ⟨hg, fun x => ?_⟩
        rw [hmem x]
        simp only [chiKw]

/-- The result of a successful keyword iteration is again a valid view. -/
theorem evalEKw_wf {enum : List Nat → List Nat} (henum : ValidEnum enum)
    {es : EdgeSeq} {kw : EKeyword} {r : EdgeSeq} (hwf : es.wf = true)
    (h : evalEKw enum es kw = Except.ok r) : r.wf = true := by
  rcases evalEKw_mem henum hwf h with ⟨hg, hmem⟩
  rw [EdgeSeq.wf, List.all_eq_true]
  intro x hx
  have := wf_lt hwf ((hmem x).mp hx).1
  rw [hg]
  simpa using this

/-- Characterization of a successful keyword loop: the surviving indices are
exactly the viewed indices satisfying every keyword's predicate. -/
theorem selectKw_mem {enum : List Nat → List Nat} (henum : ValidEnum enum) :
    ∀ {kwds : List EKeyword} {es r : EdgeSeq}, es.wf = true →
      selectKw enum es kwds = Except.ok r →
      r.graph = es.graph ∧
        ∀ x, x ∈ r.idxs ↔ x ∈ es.idxs ∧ chiAll es.graph kwds x = true := by
  intro kwds
  induction kwds with
  | nil =>
    intro es r hwf h
    have h2 := (Except.ok.inj h).symm
    subst h2
    exact ⟨rfl, fun x => by simp [chiAll]⟩
  | cons k rest ih =>
    intro es r hwf h
    have h1 : (do
        let es' ← evalEKw enum es k
        selectKw enum es' rest) = Except.ok r := h
    cases hk : evalEKw enum es k with
    | error e =>
      rw [hk] at h1
      exact Except.noConfusion h1
    | ok es1 =>
      rw [hk] at h1
      have h' : selectKw enum es1 rest = Except.ok r := h1
      rcases evalEKw_mem henum hwf hk with ⟨hg1, hm1⟩
      have hwf1 := evalEKw_wf henum hwf hk
      rcases ih hwf1 h' with ⟨hg2, hm2⟩
      refine ⟨hg2.trans hg1, fun x => ?_⟩
      rw [hm2 x, hm1 x, hg1]
      simp [chiAll, and_assoc]

theorem pairwise_lt_filter_range (n : Nat) (p : Nat → Bool) :
    List.Pairwise (· < ·) ((List.range n).filter p) :=
  (List.pairwise_lt_range n).sublist (List.filter_sublist (List.range n))

/-- On a full directed view, `_source` with `eq` and an integer operand
returns the out-incidence list itself. -/
theorem evalEKw_src_eq_full {enum : List Nat → List Nat} {es : EdgeSeq} {v : Nat}
    {r : EdgeSeq} (hd : es.graph.directed = true) (hall : es.isAll = true)
    (h : evalEKw enum es (EKeyword.src Op.eq (Operand.vtx v)) = Except.ok r) :
    r.idxs = es.graph.incident v EMode.mOut := by
  simp only [evalEKw] at h
  rw [hd] at h
  simp only [Bool.not_true, Bool.false_eq_true, if_false] at h
  have hshort : (es.isAll && (Op.eq == Op.eq)) = true := by
    rw [hall]
    rfl
  rw [hshort] at h
  simp only [if_true] at h
  rcases narrow_full_ok hall h with ⟨hr, _⟩
  rw [hr]

/-- On a full directed view, `_target` with `eq` and an integer operand
returns the in-incidence list itself. -/
theorem evalEKw_tgt_eq_full {enum : List Nat → List Nat} {es : EdgeSeq} {v : Nat}
    {r : EdgeSeq} (hd : es.graph.directed = true) (hall : es.isAll = true)
    (h : evalEKw enum es (EKeyword.tgt Op.eq (Operand.vtx v)) = Except.ok r) :
    r.idxs = es.graph.incident v EMode.mIn := by
  simp only [evalEKw] at h
  rw [hd] at h
  simp only [Bool.not_true, Bool.false_eq_true, if_false] at h
  have hshort : (es.isAll && (Op.eq == Op.eq)) = true := by
    rw [hall]
    rfl
  rw [hshort] at h
  simp only [if_true] at h
  rcases narrow_full_ok hall h with ⟨hr, _⟩
  rw [hr]

/-- On a full view, `_incident` returns `sorted(candidates)`, i.e. the
canonical ascending candidate list. -/
theorem evalEKw_incid_full {enum : List Nat → List Nat} {es : EdgeSeq} {op : Op}
    {value : List Nat} {r : EdgeSeq} (hall : es.isAll = true)
    (h : evalEKw enum es (EKeyword.incid op (Operand.vset value)) = Except.ok r) :
    r.idxs = candidatesOf es.graph value := by
  have h' : es.narrow (incidentIdxs es value) = Except.ok r := h
  unfold incidentIdxs at h'
  rw [hall] at h'
  simp only [Bool.not_true, Bool.false_eq_true, if_false] at h'
  rcases narrow_full_ok hall h' with ⟨hr, _⟩
  rw [hr]

/-- On a full view, `_within` returns the filter of the candidate set in the
set's iteration order. -/
theorem evalEKw_within_full {enum : List Nat → List Nat} {es : EdgeSeq} {op : Op}
    {value : List Nat} {r : EdgeSeq} (hall : es.isAll = true)
    (h : evalEKw enum es (EKeyword.within op (Operand.vset value)) = Except.ok r) :
    r.idxs = fullWithin enum es.graph value := by
  have h' : es.narrow
      (if !es.isAll then naiveWithin es.graph es.idxs value
       else fullWithin enum es.graph value) = Except.ok r := h
  rw [hall] at h'
  simp only [Bool.not_true, Bool.false_eq_true, if_false] at h'
  rcases narrow_full_ok hall h' with ⟨hr, _⟩
  rw [hr]

/-- On a full view, `_between` returns the filter of the candidate set in
the set's iteration order. -/
theorem evalEKw_between_full {enum : List Nat → List Nat} {es : EdgeSeq} {op : Op}
    {s1 s2 : List Nat} {r : EdgeSeq} (hall : es.isAll = true)
    (h : evalEKw enum es (EKeyword.between op (Operand.vpair [s1, s2])) = Except.ok r) :
    r.idxs = fullBetween enum es.graph s1 s2 := by
  have h' : (if (([s1, s2] : List (List Nat)).length != 2) = true
      then (Except.error SelErr.invalidOperand : Except SelErr EdgeSeq)
      else es.narrow
        (if !es.isAll then naiveBetween es.graph es.idxs s1 s2
         else fullBetween enum es.graph s1 s2)) = Except.ok r := h
  simp only [show (([s1, s2] : List (List Nat)).length != 2) = false from rfl,
    Bool.false_eq_true, if_false] at h'
  rw [hall] at h'
  simp only [Bool.not_true, Bool.false_eq_true, if_false] at h'
  rcases narrow_full_ok hall h' with ⟨hr, _⟩
  rw [hr]

theorem naiveWithin_eq_filterIdxs (g : Graph) (idxs value : List Nat) :
    naiveWithin g idxs value = filterIdxs idxs fun e =>
      (candidatesOf g value).contains e &&
        value.contains (g.edgeSource e) && value.contains (g.edgeTarget e) := rfl

theorem naiveBetween_eq_filterIdxs (g : Graph) (idxs s1 s2 : List Nat) :
    naiveBetween g idxs s1 s2 = filterIdxs idxs (qualBetween g s1 s2) := rfl

theorem narrow_filter_sublist {es : EdgeSeq} {q : Nat → Bool} {r : EdgeSeq}
    (h : es.narrow (filterIdxs es.idxs q) = Except.ok r) :
    List.Sublist r.idxs es.idxs := by
  rw [narrow_filterIdxs_ok] at h
  have h2 := (Except.ok.inj h).symm
  subst h2
  exact List.filter_sublist es.idxs

theorem narrow_incidentIdxs_sublist {es : EdgeSeq} {value : List Nat}
    {r : EdgeSeq} (hnall : es.isAll = false)
    (h : es.narrow (incidentIdxs es value) = Except.ok r) :
    List.Sublist r.idxs es.idxs := by
  unfold incidentIdxs at h
  rw [hnall] at h
  simp only [Bool.not_false, if_true] at h
  exact narrow_filter_sublist h

/-- On a non-full view every keyword predicate is evaluated by the
per-element scan, whose result is a sublist of the view — the view's
existing order is preserved. -/
theorem evalEKw_nonfull_sublist {enum : List Nat → List Nat} {es : EdgeSeq}
    {kw : EKeyword} {r : EdgeSeq} (hnall : es.isAll = false)
    (h : evalEKw enum es kw = Except.ok r) :
    List.Sublist r.idxs es.idxs := by
  cases kw with
  | attrP p => exact narrow_filter_sublist h
  | methodP p => exact narrow_filter_sublist h
  | src op o =>
    simp only [evalEKw] at h
    cases hd : es.graph.directed with
    | false =>
      rw [hd] at h
      simp only [Bool.not_false, if_true] at h
      cases hcond : (op != Op.eq && op != Op.opIn) with
      | true =>
        rw [hcond] at h
        simp only [if_true] at h
        exact Except.noConfusion h
      | false =>
        rw [hcond] at h
        simp only [Bool.false_eq_true, if_false] at h
        cases hop : (op == Op.eq) with
        | true =>
          rw [hop] at h
          simp only [if_true] at h
          cases hv : rewriteEqOperand o with
          | error e =>
            rw [hv] at h
            exact Except.noConfusion h
          | ok value =>
            rw [hv] at h
            exact narrow_incidentIdxs_sublist hnall h
        | false =>
          rw [hop] at h
          simp only [Bool.false_eq_true, if_false] at h
          cases hv : ensureSet o with
          | error e =>
            rw [hv] at h
            exact Except.noConfusion h
          | ok value =>
            rw [hv] at h
            exact narrow_incidentIdxs_sublist hnall h
    | true =>
      rw [hd] at h
      simp only [Bool.not_true, Bool.false_eq_true, if_false] at h
      have hshort : (es.isAll && (op == Op.eq)) = false := by
        rw [hnall]
        rfl
      rw [hshort] at h
      simp only [Bool.false_eq_true, if_false] at h
      cases hscan : endpointScan op o (es.idxs.map es.graph.edgeSource) with
      | error e =>
        rw [hscan] at h
        exact Except.noConfusion h
      | ok ls =>
        rw [hscan] at h
        have h' : es.narrow ls = Except.ok r := h
        rw [endpointScan_ok hscan, filterIdxs_map] at h'
        exact narrow_filter_sublist h'
  | tgt op o =>
    simp only [evalEKw] at h
    cases hd : es.graph.directed with
    | false =>
      rw [hd] at h
      simp only [Bool.not_false, if_true] at h
      cases hcond : (op != Op.eq && op != Op.opIn) with
      | true =>
        rw [hcond] at h
        simp only [if_true] at h
        exact Except.noConfusion h
      | false =>
        rw [hcond] at h
        simp only [Bool.false_eq_true, if_false] at h
        cases hop : (op == Op.eq) with
        | true =>
          rw [hop] at h
          simp only [if_true] at h
          cases hv : rewriteEqOperand o with
          | error e =>
            rw [hv] at h
            exact Except.noConfusion h
          | ok value =>
            rw [hv] at h
            exact narrow_incidentIdxs_sublist hnall h
        | false =>
          rw [hop] at h
          simp only [Bool.false_eq_true, if_false] at h
          cases hv : ensureSet o with
          | error e =>
            rw [hv] at h
            exact Except.noConfusion h
          | ok value =>
            rw [hv] at h
            exact narrow_incidentIdxs_sublist hnall h
    | true =>
      rw [hd] at h
      simp only [Bool.not_true, Bool.false_eq_true, if_false] at h
      have hshort : (es.isAll && (op == Op.eq)) = false := by
        rw [hnall]
        rfl
      rw [hshort] at h
      simp only [Bool.false_eq_true, if_false] at h
      cases hscan : endpointScan op o (es.idxs.map es.graph.edgeTarget) with
      | error e =>
        rw [hscan] at h
        exact Except.noConfusion h
      | ok ls =>
        rw [hscan] at h
        have h' : es.narrow ls = Except.ok r := h
        rw [endpointScan_ok hscan, filterIdxs_map] at h'
        exact narrow_filter_sublist h'
  | incid op o =>
    simp only [evalEKw] at h
    cases hv : ensureSet o with
    | error e =>
      rw [hv] at h
      exact Except.noConfusion h
    | ok value =>
      rw [hv] at h
      exact narrow_incidentIdxs_sublist hnall h
  | within op o =>
    simp only [evalEKw] at h
    cases hv : ensureSet o with
    | error e =>
      rw [hv] at h
      exact Except.noConfusion h
    | ok value =>
      rw [hv] at h
      have h' : es.narrow
          (if !es.isAll then naiveWithin es.graph es.idxs value
           else fullWithin enum es.graph value) = Except.ok r := h
      rw [hnall] at h'
      simp only [Bool.not_false, if_true] at h'
      rw [naiveWithin_eq_filterIdxs] at h'
      exact narrow_filter_sublist h'
  | between op o =>
    cases o with
    | vtx v => exact Except.noConfusion h
    | vset l =>
      have h' : (if (l.length != 2) = true
          then (Except.error SelErr.invalidOperand : Except SelErr EdgeSeq)
          else Except.error SelErr.typeMismatch) = Except.ok r := h
      cases hlen : (l.length != 2) with
      | true =>
        rw [hlen] at h'
        simp only [if_true] at h'
        exact Except.noConfusion h'
      | false =>
        rw [hlen] at h'
        simp only [Bool.false_eq_true, if_false] at h'
        exact Except.noConfusion h'
    | vpair ps =>
      have h' : (if (ps.length != 2) = true
          then (Except.error SelErr.invalidOperand : Except SelErr EdgeSeq)
          else es.narrow
            (if !es.isAll then naiveBetween es.graph es.idxs (ps.getD 0 []) (ps.getD 1 [])
             else fullBetween enum es.graph (ps.getD 0 []) (ps.getD 1 []))) =
          Except.ok r := h
      cases hlen : (ps.length != 2) with
      | true =>
        rw [hlen] at h'
        simp only [if_true] at h'
        exact Except.noConfusion h'
      | false =>
        rw [hlen] at h'
        simp only [Bool.false_eq_true, if_false] at h'
        rw [hnall] at h'
        simp only [Bool.not_false, if_true] at h'
        rw [naiveBetween_eq_filterIdxs] at h'
        exact narrow_filter_sublist h'

theorem rindexU_none_iff (l : List Char) : rindexU l = none ↔ ¬ ('_' ∈ l) := by
  induction l with
  | nil => simp [rindexU]
  | cons c rest ih =>
    unfold rindexU
    cases hr : rindexU rest with
    | some i =>
      have : '_' ∈ rest := by
        by_contra hm
        rw [← ih] at hm
        simp [hm] at hr
      simp [this]
    | none =>
      have hmem : ¬ ('_' ∈ rest) := ih.mp hr
      by_cases hc : c = '_' <;> simp_all [List.mem_cons, eq_comm]

/-- `rindex("_") == 0` says exactly that the only underscore is the leading
character. -/
theorem rindexU_zero_iff (l : List Char) :
    (rindexU l == some 0) = (l.head? == some '_' && !l.tail.contains '_') := by
  cases l with
  | nil => rfl
  | cons c rest =>
    show (rindexU (c :: rest) == some 0) = ((some c == some '_') && !rest.contains '_')
    unfold rindexU
    cases hr : rindexU rest with
    | some i =>
      have hmem : '_' ∈ rest := by
        by_contra hm
        rw [← rindexU_none_iff] at hm
        simp [hm] at hr
      have hcont : rest.contains '_' = true := by simpa using hmem
      simp [hcont, hmem]
    | none =>
      have hmem : ¬ ('_' ∈ rest) := (rindexU_none_iff rest).mp hr
      have hcont : rest.contains '_' = false := by simpa using hmem
      by_cases hc : c = '_' <;> simp [hc, hcont, hmem]

theorem rindexU_append_ueq (kw : List Char) :
    rindexU (kw ++ ['_', 'e', 'q']) = some kw.length := by
  induction kw with
  | nil => rfl
  | cons c rest ih =>
    show (match rindexU (rest ++ ['_', 'e', 'q']) with
      | some i => some (i + 1)
      | none => if c = '_' then some 0 else none) = some (rest.length + 1)
    rw [ih]

theorem drop_append_ueq (kw : List Char) :
    (kw ++ ['_', 'e', 'q']).drop (kw.length + 1) = ['e', 'q'] := by
  have h1 : kw ++ ['_', 'e', 'q'] = (kw ++ ['_']) ++ ['e', 'q'] := by simp
  rw [h1]
  have hlen : (kw ++ ['_']).length = kw.length + 1 := by simp
  rw [← hlen, List.drop_left]

theorem opNames_contains_ueq : opNames.contains ['e', 'q'] = true := rfl

/-- The predicate-compiler step of the keyword loop agrees with the
algorithm as the specification words it, on every keyword string. -/
theorem claim4_compiler (kw : List Char) : parseKw kw = parseKwSpec kw := by
  have hcond := rindexU_zero_iff kw
  cases hc : (!kw.contains '_' || rindexU kw == some 0) with
  | true =>
    have hspec : (!kw.contains '_' ||
        (kw.head? == some '_' && !kw.tail.contains '_')) = true := by
      rw [← hcond]
      exact hc
    simp only [parseKw, parseKwSpec, hc, hspec, if_true, rindexU_append_ueq,
      List.take_left, drop_append_ueq, opNames_contains_ueq]
  | false =>
    have hspec : (!kw.contains '_' ||
        (kw.head? == some '_' && !kw.tail.contains '_')) = false := by
      rw [← hcond]
      exact hc
    simp only [parseKw, parseKwSpec, hc, hspec, Bool.false_eq_true, if_false]

theorem mem_scan_range {m : Nat} {q : Nat → Bool} {x : Nat} :
    (x ∈ (List.range m).filter fun i => q ((List.range m).getD i 0)) ↔
      x < m ∧ q x = true := by
  rw [List.mem_filter, List.mem_range]
  constructor
  · rintro ⟨h1, h2⟩
    rw [getD_range h1] at h2
    exact ⟨h1, h2⟩
  · rintro ⟨h1, h2⟩
    refine ⟨h1, ?_⟩
    rw [getD_range h1]
    exact h2

theorem mem_filterIdxs_range {m : Nat} (q : Nat → Bool) {x : Nat} :
    x ∈ filterIdxs (List.range m) q ↔ x < m ∧ q x = true := by
  unfold filterIdxs
  rw [List.length_range]
  exact mem_scan_range

/-- C1: for every graph and every operand, each of the four reserved-subject
edge predicates (`_incident`, `_within`, `_between`, endpoint equality
`_source_eq`/`_target_eq`) selects the same set of absolute edge indices
through the full-view incidence shortcut as through the naive per-edge scan
applied to the full index range. -/
theorem claim1_opt_naive_equiv (enum : List Nat → List Nat)
    (henum : ValidEnum enum) (g : Graph) (value s1 s2 : List Nat) (v : Nat) :
    (∀ x, x ∈ candidatesOf g value ↔
      x ∈ naiveIncident g (List.range g.ecount) value) ∧
    (∀ x, x ∈ fullWithin enum g value ↔
      x ∈ naiveWithin g (List.range g.ecount) value) ∧
    (∀ x, x ∈ fullBetween enum g s1 s2 ↔
      x ∈ naiveBetween g (List.range g.ecount) s1 s2) ∧
    (g.directed = true →
      ∀ x, (x ∈ g.incident v EMode.mOut ↔
          x ∈ filterIdxs ((List.range g.ecount).map g.edgeSource)
            (epChi Op.eq (Operand.vtx v))) ∧
        (x ∈ g.incident v EMode.mIn ↔
          x ∈ filterIdxs ((List.range g.ecount).map g.edgeTarget)
            (epChi Op.eq (Operand.vtx v)))) := by
  refine ⟨fun x => ?_, fun x => ?_, fun x => ?_, fun hd x => ⟨?_, ?_⟩⟩
  · rw [mem_candidatesOf]
    have hn := mem_filterIdxs_range (m := g.ecount)
      (fun e => (candidatesOf g value).contains e) (x := x)
    refine Iff.trans ?_ hn.symm
    constructor
    · rintro ⟨h1, h2⟩
      exact ⟨h1, contains_mem.mpr (mem_candidatesOf.mpr ⟨h1, h2⟩)⟩
    · rintro ⟨h1, h2⟩
      exact ⟨h1, (mem_candidatesOf.mp (contains_mem.mp h2)).2⟩
  · have hn := mem_filterIdxs_range (m := g.ecount)
      (fun e => (candidatesOf g value).contains e &&
        value.contains (g.edgeSource e) && value.contains (g.edgeTarget e)) (x := x)
    refine Iff.trans ?_ hn.symm
    unfold fullWithin
    rw [List.mem_filter, (henum (candidatesOf g value)).mem_iff]
    simp only [Bool.and_eq_true]
    constructor
    · rintro ⟨hC, hA, hB⟩
      rcases mem_candidatesOf.mp hC with ⟨hm, _⟩
      exact ⟨hm, ⟨contains_mem.mpr hC, hA⟩, hB⟩
    · rintro ⟨_, ⟨hc, hA⟩, hB⟩
      exact ⟨contains_mem.mp hc, hA, hB⟩
  · have hn := mem_filterIdxs_range (m := g.ecount) (qualBetween g s1 s2) (x := x)
    refine Iff.trans ?_ hn.symm
    unfold fullBetween
    rw [List.mem_filter, (henum (candidatesOf g (s1 ++ s2))).mem_iff]
    constructor
    · rintro ⟨h1, h2⟩
      exact ⟨(mem_candidatesOf.mp h1).1, h2⟩
    · rintro ⟨h1, h2⟩
      exact ⟨mem_candidatesOf.mpr ⟨h1, qualBetween_qualIncident h2⟩, h2⟩
  · rw [mem_incident, hd, filterIdxs_map]
    simp only [if_true]
    exact (mem_filterIdxs_range fun a => epChi Op.eq (Operand.vtx v) (g.edgeSource a)).symm
  · rw [mem_incident, hd, filterIdxs_map]
    simp only [if_true]
    exact (mem_filterIdxs_range fun a => epChi Op.eq (Operand.vtx v) (g.edgeTarget a)).symm

/-- C2: `_incident` with a vertex-set operand keeps exactly the viewed edges
with at least one endpoint in the set, on directed and undirected graphs
alike; on the directed triangle `[(0,1),(1,2),(2,0)]` with operand `{1}` and
the full view it returns exactly the edges `(0,1)` and `(1,2)`. -/
theorem claim2_incident (enum : List Nat → List Nat) (henum : ValidEnum enum)
    (es : EdgeSeq) (hwf : es.wf = true) (op : Op) (value : List Nat)
    (r : EdgeSeq)
    (h : evalEKw enum es (EKeyword.incid op (Operand.vset value)) = Except.ok r) :
    (∀ x, x ∈ r.idxs ↔ x ∈ es.idxs ∧ qualIncident es.graph value x = true) ∧
    evalEKw idEnum triGraph.fullES (EKeyword.incid Op.eq (Operand.vset [1])) =
      Except.ok ⟨triGraph, [0, 1]⟩ := by
  refine ⟨fun x => ?_, by rfl⟩
  have hm := (evalEKw_mem henum hwf h).2 x
  simpa only [chiKw, ensureSet] using hm

theorem claim2_witness :
    0 ∈ (⟨triGraph, [0, 1]⟩ : EdgeSeq).idxs ↔
      0 ∈ triGraph.fullES.idxs ∧ qualIncident triGraph [1] 0 = true :=
  (claim2_incident idEnum idEnum_valid triGraph.fullES (by decide) Op.eq [1]
    ⟨triGraph, [0, 1]⟩ rfl).1 0

/-- C3: on an undirected graph an endpoint keyword with a parsed operator
other than `eq` or `in` fails with the unsupported-operator error before any
narrowing, while with `eq` it is rewritten to `_incident`, so `_source
equal to v` and `_target equal to v` both keep exactly the viewed edges
incident on `v`; the spec's concrete test on the single-edge graph `[(0,1)]`
is included. -/
theorem claim3_undirected_endpoints (enum : List Nat → List Nat)
    (henum : ValidEnum enum) (es : EdgeSeq) (hwf : es.wf = true)
    (hund : es.graph.directed = false) (op : Op) (o : Operand) (v : Nat) :
    (op ≠ Op.eq → op ≠ Op.opIn →
      evalEKw enum es (EKeyword.src op o) =
        Except.error SelErr.unsupportedOperator ∧
      evalEKw enum es (EKeyword.tgt op o) =
        Except.error SelErr.unsupportedOperator) ∧
    (∀ r, evalEKw enum es (EKeyword.src Op.eq (Operand.vtx v)) = Except.ok r →
      ∀ x, x ∈ r.idxs ↔ x ∈ es.idxs ∧ es.graph.touches x v = true) ∧
    (∀ r, evalEKw enum es (EKeyword.tgt Op.eq (Operand.vtx v)) = Except.ok r →
      ∀ x, x ∈ r.idxs ↔ x ∈ es.idxs ∧ es.graph.touches x v = true) ∧
    evalEKw idEnum pathGraph.fullES (EKeyword.src Op.eq (Operand.vtx 0)) =
      Except.ok ⟨pathGraph, [0]⟩ ∧
    evalEKw idEnum pathGraph.fullES (EKeyword.tgt Op.eq (Operand.vtx 0)) =
      Except.ok ⟨pathGraph, [0]⟩ ∧
    evalEKw idEnum pathGraph.fullES (EKeyword.src Op.lt (Operand.vtx 1)) =
      Except.error SelErr.unsupportedOperator := by
  refine ⟨fun h1 h2 => ⟨?_, ?_⟩, fun r h x => ?_, fun r h x => ?_, rfl, rfl, rfl⟩
  · simp only [evalEKw, hund, Bool.not_false, if_true]
    have hcond : (op != Op.eq && op != Op.opIn) = true := by
      simp [h1, h2]
    rw [hcond]
    rfl
  · simp only [evalEKw, hund, Bool.not_false, if_true]
    have hcond : (op != Op.eq && op != Op.opIn) = true := by
      simp [h1, h2]
    rw [hcond]
    rfl
  · have hm := (evalEKw_mem henum hwf h).2 x
    rw [hm]
    simp [chiKw, hund, undirSet, rewriteEqOperand, qualIncident]
  · have hm := (evalEKw_mem henum hwf h).2 x
    rw [hm]
    simp [chiKw, hund, undirSet, rewriteEqOperand, qualIncident]

theorem claim3_witness :
    evalEKw idEnum pathGraph.fullES (EKeyword.src Op.gt (Operand.vtx 0)) =
      Except.error SelErr.unsupportedOperator ∧
    (0 ∈ (⟨pathGraph, [0]⟩ : EdgeSeq).idxs ↔
      0 ∈ pathGraph.fullES.idxs ∧ pathGraph.touches 0 0 = true) :=
  ⟨((claim3_undirected_endpoints idEnum idEnum_valid pathGraph.fullES
      (by decide) rfl Op.gt (Operand.vtx 0) 0).1 (by decide) (by decide)).1,
   (claim3_undirected_endpoints idEnum idEnum_valid pathGraph.fullES
      (by decide) rfl Op.gt (Operand.vtx 0) 0).2.1 ⟨pathGraph, [0]⟩ rfl 0⟩

/-- C9: for the reserved subjects `_incident`, `_within` and `_between` the
parsed operator suffix is discarded: any recognized operator yields exactly
the evaluation that `eq` (the default) yields. -/
theorem claim9_op_ignored (enum : List Nat → List Nat) (es : EdgeSeq)
    (op : Op) (o : Operand) :
    evalEKw enum es (EKeyword.incid op o) =
      evalEKw enum es (EKeyword.incid Op.eq o) ∧
    evalEKw enum es (EKeyword.within op o) =
      evalEKw enum es (EKeyword.within Op.eq o) ∧
    evalEKw enum es (EKeyword.between op o) =
      evalEKw enum es (EKeyword.between Op.eq o) :=
  ⟨rfl, rfl, rfl⟩

/-- C10: on an undirected graph, `_source`/`_target` with `eq` and an
iterable operand evaluate exactly as `_incident` on the set of its members
(not as an equality comparison), and a non-iterable operand `v` behaves as
the singleton set containing `v`. -/
theorem claim10_undirected_set (enum : List Nat → List Nat)
    (henum : ValidEnum enum) (es : EdgeSeq) (hwf : es.wf = true)
    (hund : es.graph.directed = false) (l : List Nat) (v : Nat) :
    (evalEKw enum es (EKeyword.src Op.eq (Operand.vset l)) =
      evalEKw enum es (EKeyword.incid Op.eq (Operand.vset l)) ∧
     evalEKw enum es (EKeyword.tgt Op.eq (Operand.vset l)) =
      evalEKw enum es (EKeyword.incid Op.eq (Operand.vset l))) ∧
    (∀ r, evalEKw enum es (EKeyword.src Op.eq (Operand.vset l)) = Except.ok r →
      ∀ x, x ∈ r.idxs ↔ x ∈ es.idxs ∧ qualIncident es.graph l x = true) ∧
    (∀ r, evalEKw enum es (EKeyword.src Op.eq (Operand.vtx v)) = Except.ok r →
      ∀ x, x ∈ r.idxs ↔ x ∈ es.idxs ∧ qualIncident es.graph [v] x = true) := by
  refine ⟨⟨?_, ?_⟩, fun r h x => ?_, fun r h x => ?_⟩
  · simp only [evalEKw, hund, Bool.not_false, if_true]
    rfl
  · simp only [evalEKw, hund, Bool.not_false, if_true]
    rfl
  · have hm := (evalEKw_mem henum hwf h).2 x
    rw [hm]
    simp [chiKw, hund, undirSet, rewriteEqOperand]
  · have hm := (evalEKw_mem henum hwf h).2 x
    rw [hm]
    simp [chiKw, hund, undirSet, rewriteEqOperand]

theorem claim10_witness :
    evalEKw idEnum pathGraph.fullES (EKeyword.src Op.eq (Operand.vset [0, 1])) =
      evalEKw idEnum pathGraph.fullES (EKeyword.incid Op.eq (Operand.vset [0, 1])) :=
  ((claim10_undirected_set idEnum idEnum_valid pathGraph.fullES (by decide)
    rfl [0, 1] 0).1).1

/-- C6: `_between` with a pair operand keeps exactly the viewed edges with
one endpoint in each of the two sets, in either direction, and an operand
tuple whose length is not 2 fails with the invalid-operand error. -/
theorem claim6_between (enum : List Nat → List Nat) (henum : ValidEnum enum)
    (es : EdgeSeq) (hwf : es.wf = true) (op : Op) (s1 s2 : List Nat) :
    (∀ r, evalEKw enum es (EKeyword.between op (Operand.vpair [s1, s2])) =
        Except.ok r →
      ∀ x, x ∈ r.idxs ↔ x ∈ es.idxs ∧ qualBetween es.graph s1 s2 x = true) ∧
    (∀ ps : List (List Nat), ps.length ≠ 2 →
      evalEKw enum es (EKeyword.between op (Operand.vpair ps)) =
        Except.error SelErr.invalidOperand) := by
  constructor
  · intro r h x
    have hm := (evalEKw_mem henum hwf h).2 x
    rw [hm]
    simp [chiKw]
  · intro ps hlen
    have hcond : (ps.length != 2) = true := by simpa using hlen
    have hbody : evalEKw enum es (EKeyword.between op (Operand.vpair ps)) =
        (if (ps.length != 2) = true
         then (Except.error SelErr.invalidOperand : Except SelErr EdgeSeq)
         else es.narrow
           (if !es.isAll then naiveBetween es.graph es.idxs (ps.getD 0 []) (ps.getD 1 [])
            else fullBetween enum es.graph (ps.getD 0 []) (ps.getD 1 []))) := rfl
    rw [hbody, hcond]
    simp

theorem claim6_witness :
    evalEKw idEnum betweenG.fullES
        (EKeyword.between Op.eq (Operand.vpair [[0]])) =
      Except.error SelErr.invalidOperand ∧
    (1 ∈ (⟨betweenG, [0, 1]⟩ : EdgeSeq).idxs ↔
      1 ∈ betweenG.fullES.idxs ∧ qualBetween betweenG [0] [1] 1 = true) :=
  ⟨(claim6_between idEnum idEnum_valid betweenG.fullES (by decide) Op.eq
      [0] [1]).2 [[0]] (by decide),
   (claim6_between idEnum idEnum_valid betweenG.fullES (by decide) Op.eq
      [0] [1]).1 ⟨betweenG, [0, 1]⟩ rfl 1⟩

theorem claim1_witness :
    ValidEnum idEnum ∧
    (0 ∈ candidatesOf triGraph [1] ↔
      0 ∈ naiveIncident triGraph (List.range triGraph.ecount) [1]) :=
  ⟨idEnum_valid,
   (claim1_opt_naive_equiv idEnum idEnum_valid triGraph [1] [0] [1] 1).1 0⟩

/-- C5 counterexample: the full-view `_within` branch iterates the Python
set `candidates` without sorting, and a set of ints is not iterated in
ascending order in general (CPython iterates `{1, 8}` as `[8, 1]`, since 8
hashes to slot 0 and 1 to slot 1 of the 8-slot table).  With the reversing
enumeration — a valid order for an unordered set, and the order CPython
produces for this input — the 9-edge graph below yields `[8, 1]` on the full
view, which is not strictly increasing, refuting the claim for `_within`
(and symmetrically `_between`). -/
theorem claim5_counterexample :
    ValidEnum revEnum ∧
    evalEKw revEnum gWithin.fullES
        (EKeyword.within Op.eq (Operand.vset [0, 1])) =
      Except.ok ⟨gWithin, [8, 1]⟩ ∧
    ¬ List.Pairwise (· < ·) ([8, 1] : List Nat) :=
  ⟨revEnum_valid, rfl, by decide⟩

/-- C5 amended: on a full view, endpoint equality and `_incident` do return
strictly increasing indices, but `_within` and `_between` return the
qualifying edges in the iteration order of the candidate set (which the code
does not sort); on a non-full view every keyword is evaluated by the
per-element scan and the result preserves the view's existing order (it is a
sublist of the view). -/
theorem claim5_order (enum : List Nat → List Nat) (es : EdgeSeq) (v : Nat)
    (op : Op) (value s1 s2 : List Nat) :
    (∀ r, es.graph.directed = true → es.isAll = true →
      evalEKw enum es (EKeyword.src Op.eq (Operand.vtx v)) = Except.ok r →
      List.Pairwise (· < ·) r.idxs) ∧
    (∀ r, es.graph.directed = true → es.isAll = true →
      evalEKw enum es (EKeyword.tgt Op.eq (Operand.vtx v)) = Except.ok r →
      List.Pairwise (· < ·) r.idxs) ∧
    (∀ r, es.isAll = true →
      evalEKw enum es (EKeyword.incid op (Operand.vset value)) = Except.ok r →
      List.Pairwise (· < ·) r.idxs) ∧
    (∀ r, es.isAll = true →
      evalEKw enum es (EKeyword.within op (Operand.vset value)) = Except.ok r →
      r.idxs = fullWithin enum es.graph value) ∧
    (∀ r, es.isAll = true →
      evalEKw enum es (EKeyword.between op (Operand.vpair [s1, s2])) =
        Except.ok r →
      r.idxs = fullBetween enum es.graph s1 s2) ∧
    (∀ kw r, es.isAll = false → evalEKw enum es kw = Except.ok r →
      List.Sublist r.idxs es.idxs) := by
  refine ⟨fun r hd hall h => ?_, fun r hd hall h => ?_, fun r hall h => ?_,
    fun r hall h => evalEKw_within_full hall h,
    fun r hall h => evalEKw_between_full hall h,
    fun kw r hnall h => evalEKw_nonfull_sublist hnall h⟩
  · rw [evalEKw_src_eq_full hd hall h]
    exact pairwise_lt_filter_range _ _
  · rw [evalEKw_tgt_eq_full hd hall h]
    exact pairwise_lt_filter_range _ _
  · rw [evalEKw_incid_full hall h]
    exact pairwise_lt_filter_range _ _

theorem claim5_witness :
    List.Pairwise (· < ·) ((⟨triGraph, [0, 1]⟩ : EdgeSeq) : EdgeSeq).idxs :=
  (claim5_order idEnum triGraph.fullES 1 Op.eq [1] [0] [1]).2.2.1
    ⟨triGraph, [0, 1]⟩ rfl rfl

/-- C7 counterexample: an ill-typed predicate (an ordering comparison of an
endpoint against a list) raises only when it actually scans an element, so
a predicate that first empties the view masks the error: one order returns
the empty view, the swapped order raises, and the two orders do not yield
the same index set. -/
theorem claim7_counterexample :
    selectKw idEnum gOne.fullES
        [EKeyword.attrP (fun _ => false), EKeyword.src Op.lt (Operand.vset [3])] =
      Except.ok ⟨gOne, []⟩ ∧
    selectKw idEnum gOne.fullES
        [EKeyword.src Op.lt (Operand.vset [3]), EKeyword.attrP (fun _ => false)] =
      Except.error SelErr.typeMismatch :=
  ⟨rfl, rfl⟩

/-- C7 amended: chaining two single-predicate selects is exactly the
one-call two-predicate select, and provided both predicate orders evaluate
without error, the two orders yield the same set of absolute indices; each
keyword predicate narrows only within the indices surviving the preceding
ones. -/
theorem claim7_conjunction (enum : List Nat → List Nat) (henum : ValidEnum enum)
    (es : EdgeSeq) (hwf : es.wf = true) (P Q : EKeyword) :
    (EdgeSeq.select enum es none [P, Q] =
      (do
        let es1 ← EdgeSeq.select enum es none [P]
        EdgeSeq.select enum es1 none [Q])) ∧
    (∀ r1 r2, selectKw enum es [P, Q] = Except.ok r1 →
      selectKw enum es [Q, P] = Except.ok r2 →
      (∀ x, x ∈ r1.idxs ↔ x ∈ r2.idxs) ∧ ∀ x, x ∈ r1.idxs → x ∈ es.idxs) := by
  constructor
  · have hL : EdgeSeq.select enum es none [P, Q] =
        (do
          let e1 ← evalEKw enum es P
          selectKw enum e1 [Q]) := rfl
    have hR1 : EdgeSeq.select enum es none [P] =
        (do
          let e1 ← evalEKw enum es P
          Except.ok e1) := rfl
    rw [hL, hR1]
    cases hP : evalEKw enum es P with
    | error e => rfl
    | ok e1 => rfl
  · intro r1 r2 h1 h2
    rcases selectKw_mem henum hwf h1 with ⟨_, hm1⟩
    rcases selectKw_mem henum hwf h2 with ⟨_, hm2⟩
    refine ⟨fun x => ?_, fun x hx => ((hm1 x).mp hx).1⟩
    rw [hm1 x, hm2 x]
    simp [chiAll, List.all_cons, List.all_nil, Bool.and_comm]

theorem claim7_witness :
    ValidEnum idEnum ∧
    (0 ∈ (⟨triGraph, [0]⟩ : EdgeSeq).idxs ↔ 0 ∈ (⟨triGraph, [0]⟩ : EdgeSeq).idxs) :=
  ⟨idEnum_valid,
   ((claim7_conjunction idEnum idEnum_valid triGraph.fullES (by decide)
      (EKeyword.attrP fun e => e == 0) (EKeyword.src Op.eq (Operand.vtx 0))).2
      ⟨triGraph, [0]⟩ ⟨triGraph, [0]⟩ rfl rfl).1 0⟩

/-- C8 counterexample: with a positional callable and a keyword predicate,
`find` keyword-filters only the *first* positional match: here `select`
narrows to the non-empty view `[1]`, yet `find` raises the not-found error
because edge 0, the first positional match, fails the keyword — so `find`
neither applies the same evaluation as `select` nor fails exactly when the
narrowed view is empty. -/
theorem claim8_counterexample :
    EdgeSeq.select idEnum gTwo.fullES (some (PosArg.callable fun _ => true))
        [EKeyword.attrP fun e => e == 1] = Except.ok ⟨gTwo, [1]⟩ ∧
    EdgeSeq.find idEnum gTwo.fullES (some (PosArg.callable fun _ => true))
        [EKeyword.attrP fun e => e == 1] = Except.error SelErr.notFound :=
  ⟨rfl, rfl⟩

/-- C8 amended: with only keyword arguments `find` returns the first element
of the keyword-narrowed view and fails with the not-found error exactly when
that view is empty (select errors propagate unchanged); with only positional
arguments it returns the first element of the positionally narrowed view
likewise; with both, it takes the first positional match and keyword-filters
that single element re-selected from the full sequence, failing if that one
element is filtered out even when later positional matches would survive. -/
theorem claim8_find (enum : List Nat → List Nat) (es : EdgeSeq) (a : PosArg)
    (kwds : List EKeyword) :
    (∀ r, selectKw enum es kwds = Except.ok r →
      EdgeSeq.find enum es none kwds =
        (match r.idxs with
         | [] => Except.error SelErr.notFound
         | x :: _ => Except.ok x)) ∧
    (∀ err, selectKw enum es kwds = Except.error err →
      EdgeSeq.find enum es none kwds = Except.error err) ∧
    (∀ r, posSelect es (some a) = Except.ok r →
      EdgeSeq.find enum es (some a) [] =
        (match r.idxs with
         | [] => Except.error SelErr.notFound
         | x :: _ => Except.ok x)) ∧
    (∀ e, kwds ≠ [] → seqFindPos es a = Except.ok e →
      EdgeSeq.find enum es (some a) kwds =
        (do
          let es1 ← (es.graph.fullES).narrow [e]
          let es2 ← selectKw enum es1 kwds
          match es2.idxs with
          | [] => Except.error SelErr.notFound
          | x :: _ => Except.ok x)) := by
  refine ⟨fun r h => ?_, fun err h => ?_, fun r h => ?_, fun e hk h => ?_⟩
  · have hdef : EdgeSeq.find enum es none kwds =
        (do
          let es2 ← selectKw enum es kwds
          match es2.idxs with
          | [] => Except.error SelErr.notFound
          | x :: _ => Except.ok x) := rfl
    rw [hdef, h]
    rfl
  · have hdef : EdgeSeq.find enum es none kwds =
        (do
          let es2 ← selectKw enum es kwds
          match es2.idxs with
          | [] => Except.error SelErr.notFound
          | x :: _ => Except.ok x) := rfl
    rw [hdef, h]
    rfl
  · have hdef : EdgeSeq.find enum es (some a) [] =
        (do
          let e ← seqFindPos es a
          Except.ok e) := rfl
    have hsf : seqFindPos es a =
        (match r.idxs with
         | [] => Except.error SelErr.notFound
         | x :: _ => Except.ok x) := by
      unfold seqFindPos
      rw [h]
      rfl
    rw [hdef, hsf]
    cases r.idxs with
    | nil => rfl
    | cons x xs => rfl
  · have hne : kwds.isEmpty = false := by
      cases kwds with
      | nil => exact absurd rfl hk
      | cons k rest => rfl
    have hdef : EdgeSeq.find enum es (some a) kwds =
        (do
          let e ← seqFindPos es a
          if kwds.isEmpty then Except.ok e
          else do
            let es1 ← (es.graph.fullES).narrow [e]
            let es2 ← selectKw enum es1 kwds
            match es2.idxs with
            | [] => Except.error SelErr.notFound
            | x :: _ => Except.ok x) := rfl
    have hstep : EdgeSeq.find enum es (some a) kwds =
        (if kwds.isEmpty = true then Except.ok e
         else do
           let es1 ← (es.graph.fullES).narrow [e]
           let es2 ← selectKw enum es1 kwds
           match es2.idxs with
           | [] => Except.error SelErr.notFound
           | x :: _ => Except.ok x) := by
      rw [hdef, h]
      rfl
    rw [hstep, hne]
    simp

theorem claim8_witness :
    EdgeSeq.find idEnum gTwo.fullES none [EKeyword.attrP fun e => e == 1] =
      Except.ok 1 :=
  (claim8_find idEnum gTwo.fullES (PosArg.callable fun _ => true)
    [EKeyword.attrP fun e => e == 1]).1 ⟨gTwo, [1]⟩ rfl
